import Mathlib

/-!
Verification of the intrusive fixed-capacity doubly linked list (`src/list.rs`)
of the `lru-k` repository, and of the demo harness's argument validation
(`src/bin/lru.rs`).

The Rust `List<const CAP: usize>` stores, per slot id, a pair of optional
neighbour ids (`Links { next, prev }`) in a fixed array `links: [Links; CAP]`,
plus optional `head` and `tail` ids.  Ids are plain integers (`u32` in Rust,
modelled as `Nat` here).  `push_front` asserts `id < CAP` (the assertion
failure is modelled as `none`); `remove` returns early when `id ≥ CAP`;
`pop_front`/`pop_back` return the removed id (or `none`) together with the
updated list.

The specification side describes a list state by its "spine": the Lean list
of ids from head to tail.  `Represents l xs` says that state `l` is exactly
the encoding of spine `xs`: `head`/`tail` are the first/last elements of
`xs`, every slot on the spine holds links to its spine neighbours, and every
slot off the spine holds empty links.
-/

namespace LruK

/-- Per-slot link record embedding Rust's `Links { next: Option<Id>, prev: Option<Id> }`. -/
structure Links where
  next : Option Nat
  prev : Option Nat
deriving DecidableEq

/-- Rust's `Links::new()`: both pointers absent. -/
def Links.new : Links := ⟨none, none⟩

instance : Inhabited Links := ⟨Links.new⟩

/-- Embedding of Rust's `List<const CAP: usize>`: a links arena plus optional
head and tail ids.  The arena always has size `CAP` in every state reachable
from `LList.new`. -/
structure LList (CAP : Nat) where
  links : Array Links
  head : Option Nat
  tail : Option Nat
deriving DecidableEq

/-- Rust's `List::new()`. -/
def LList.new (CAP : Nat) : LList CAP :=
  ⟨Array.mkArray CAP Links.new, none, none⟩

/-- Rust's `List::is_empty`: checks only `head`. -/
def LList.isEmpty {CAP : Nat} (l : LList CAP) : Bool :=
  l.head.isNone

/-- Rust's `List::push_front`.  The leading `assert!((id as usize) < CAP)` is
modelled by returning `none` (panic) when the assertion fails; otherwise the
new state is returned.  Field updates follow the Rust statement order:
`head := Some(id)`; `tail := Some(id)` if `tail` was absent; the pushed slot's
links become `{ prev: None, next: old_head }`; finally the old head's `prev`
is pointed at `id`. -/
def LList.pushFront {CAP : Nat} (l : LList CAP) (id : Nat) : Option (LList CAP) :=
  if id < CAP then
    let oldHead := l.head
    let l1 : LList CAP :=
      { l with head := some id, tail := if l.tail.isNone then some id else l.tail }
    let l2 : LList CAP := { l1 with links := l1.links.setD id ⟨oldHead, none⟩ }
    some (match oldHead with
      | none => l2
      | some oh =>
        { l2 with links := l2.links.setD oh ⟨(l2.links.getD oh default).next, some id⟩ })
  else
    none

/-- Rust's `List::remove`.  Returns early (state unchanged) when `id ≥ CAP`.
Otherwise reads the slot's stored `next`/`prev`, rewires the `prev` side
(predecessor's `next`, or `head`), then the `next` side (successor's `prev`,
or `tail`), and finally clears the removed slot's own links (first `next`,
then `prev`, as in the Rust source). -/
def LList.remove {CAP : Nat} (l : LList CAP) (id : Nat) : LList CAP :=
  if id < CAP then
    let link := l.links.getD id default
    let next := link.next
    let prev := link.prev
    let l1 : LList CAP :=
      match prev with
      | some p => { l with links := l.links.setD p ⟨next, (l.links.getD p default).prev⟩ }
      | none => { l with head := next }
    let l2 : LList CAP :=
      match next with
      | some n => { l1 with links := l1.links.setD n ⟨(l1.links.getD n default).next, prev⟩ }
      | none => { l1 with tail := prev }
    let l3 : LList CAP :=
      { l2 with links := l2.links.setD id ⟨none, (l2.links.getD id default).prev⟩ }
    { l3 with links := l3.links.setD id ⟨(l3.links.getD id default).next, none⟩ }
  else
    l

/-- Rust's `List::pop_back`: returns the tail id (if any) paired with the
state after removing it. -/
def LList.popBack {CAP : Nat} (l : LList CAP) : Option Nat × LList CAP :=
  match l.tail with
  | some t => (some t, l.remove t)
  | none => (none, l)

/-- Rust's `List::pop_front`: returns the head id (if any) paired with the
state after removing it. -/
def LList.popFront {CAP : Nat} (l : LList CAP) : Option Nat × LList CAP :=
  match l.head with
  | some h => (some h, l.remove h)
  | none => (none, l)

/-- Fuel-bounded pointer chase through the arena: from an optional start id,
repeatedly apply the pointer projection `f`.  Used with `.next` from `head`
(forward traversal) and with `.prev` from `tail` (backward traversal). -/
def chainBy (f : Nat → Option Nat) : Nat → Option Nat → List Nat
  | 0, _ => []
  | _ + 1, none => []
  | fuel + 1, some id => id :: chainBy f fuel (f id)

/-- Forward traversal of the list: follow `next` pointers from `head`,
with fuel `CAP` (enough for any well-formed state). -/
def LList.toListFwd {CAP : Nat} (l : LList CAP) : List Nat :=
  chainBy (fun i => (l.links.getD i default).next) CAP l.head

/-- Backward traversal of the list: follow `prev` pointers from `tail`. -/
def LList.toListBwd {CAP : Nat} (l : LList CAP) : List Nat :=
  chainBy (fun i => (l.links.getD i default).prev) CAP l.tail

/-- Specification-side links of slot `i` for a spine `xs`, carrying the id of
the element just before the current sublist in the accumulator `p` (the
predecessor of the sublist's first element, `none` at the start of the
spine).  Slots off the spine get empty links. -/
def linkOfAux (p : Option Nat) : List Nat → Nat → Links
  | [], _ => default
  | x :: rest, i => if x = i then ⟨rest.head?, p⟩ else linkOfAux (some x) rest i

/-- Specification-side links of slot `i` for a spine `xs`: next is the spine
element after `i`, prev the one before it, both absent when `i` is off the
spine. -/
def linkOf (xs : List Nat) (i : Nat) : Links :=
  linkOfAux none xs i

/-- `Represents l xs`: state `l` is exactly the encoding of spine `xs`
(head/tail are the first/last spine elements, each slot's stored links are
the spine neighbours, off-spine slots are fully unlinked, the spine has no
duplicates and only in-range ids, and the arena has size `CAP`). -/
def Represents {CAP : Nat} (l : LList CAP) (xs : List Nat) : Prop :=
  l.links.size = CAP ∧ xs.Nodup ∧ (∀ x ∈ xs, x < CAP) ∧
    l.head = xs.head? ∧ l.tail = xs.getLast? ∧
    ∀ i, i < CAP → l.links.getD i default = linkOf xs i

instance {CAP : Nat} (l : LList CAP) (xs : List Nat) : Decidable (Represents l xs) := by
  unfold Represents
  exact inferInstance

/-- One operation of the list API, for stating properties of operation
sequences. -/
inductive Op where
  | push : Nat → Op
  | rem : Nat → Op
  | popF : Op
  | popB : Op
deriving DecidableEq

/-- Run one operation; `none` models a `push_front` assertion failure. -/
def execOp {CAP : Nat} (l : LList CAP) : Op → Option (LList CAP)
  | .push id => l.pushFront id
  | .rem id => some (l.remove id)
  | .popF => some l.popFront.2
  | .popB => some l.popBack.2

/-- Run a sequence of operations, stopping with `none` on a panic. -/
def execOps {CAP : Nat} (l : LList CAP) : List Op → Option (LList CAP)
  | [] => some l
  | op :: ops =>
    match execOp l op with
    | some l' => execOps l' ops
    | none => none

/-- The precondition imposed by the spec sentence of C1 exactly as frozen:
only `push_front` arguments are constrained (in range and not currently
linked, i.e. not visited by the forward traversal); `remove` and the pops
are unconstrained. -/
def opOkClaim {CAP : Nat} (l : LList CAP) : Op → Bool
  | .push id => decide (id < CAP) && decide (id ∉ l.toListFwd)
  | .rem _ => true
  | .popF => true
  | .popB => true

/-- `opOkClaim` holding along a whole operation sequence. -/
def opsOkClaim {CAP : Nat} (l : LList CAP) : List Op → Bool
  | [] => true
  | op :: ops =>
    opOkClaim l op &&
      match execOp l op with
      | some l' => opsOkClaim l' ops
      | none => false

/-- The amended precondition: additionally every `remove` argument must be
out of range or currently linked. -/
def opOk {CAP : Nat} (l : LList CAP) : Op → Bool
  | .push id => decide (id < CAP) && decide (id ∉ l.toListFwd)
  | .rem id => decide (CAP ≤ id) || decide (id ∈ l.toListFwd)
  | .popF => true
  | .popB => true

/-- `opOk` holding along a whole operation sequence. -/
def opsOk {CAP : Nat} (l : LList CAP) : List Op → Bool
  | [] => true
  | op :: ops =>
    opOk l op &&
      match execOp l op with
      | some l' => opsOk l' ops
      | none => false

/-- Outcome of the demo harness's `main` after argument parsing: either an
early `process::exit(code)` with a diagnostic printed (and no cache
constructed nor any cache operation performed), or running the demo with the
accepted parameters. -/
inductive MainAction where
  | exitWith (code : Nat) (msg : String)
  | runDemo (capacity hotSize scanSize hotOps seed : Nat)
deriving DecidableEq

/-- Embedding of the argument validation at the top of `main` in
`src/bin/lru.rs`: with the parsed numeric parameters, `capacity == 0 ||
hot_size == 0` exits with status 2 after printing a diagnostic, before any
cache exists; then `scan_size == 0` likewise; otherwise the demo proceeds. -/
def mainDispatch (capacity hotSize scanSize hotOps seed : Nat) : MainAction :=
  if capacity = 0 || hotSize = 0 then
    .exitWith 2 "capacity and hot_size must be > 0"
  else if scanSize = 0 then
    .exitWith 2 "scan_size must be > 0"
  else
    .runDemo capacity hotSize scanSize hotOps seed

/-- Operation sequence exercising the frozen C1 precondition: both pushed ids
are in range and completely unlinked when pushed, while the two removes are
unconstrained (as in the claim). -/
def c1ops : List Op := [Op.push 0, Op.push 1, Op.rem 2, Op.rem 1]

/-- The state `c1ops` produces from a fresh capacity-3 list. -/
def c1bad : LList 3 := ⟨#[Links.new, Links.new, Links.new], some 0, none⟩

/-- A capacity-2 list whose spine is `[0, 1]`. -/
def c2list : LList 2 := ⟨#[⟨some 1, none⟩, ⟨none, some 0⟩], some 0, some 1⟩

/-- A capacity-2 list whose spine is `[0]`. -/
def c3list : LList 2 := ⟨#[Links.new, Links.new], some 0, some 0⟩

/-- A capacity-1 list whose spine is `[0]` (so id 0 is currently linked). -/
def c5list : LList 1 := ⟨#[Links.new], some 0, some 0⟩

/-- A capacity-2 list whose spine is `[1, 0]`. -/
def c6list : LList 2 := ⟨#[⟨none, some 1⟩, ⟨some 0, none⟩], some 1, some 0⟩

/-- A capacity-1 list whose spine is `[0]`. -/
def c8list : LList 1 := ⟨#[Links.new], some 0, some 0⟩

/-! ### Array access helpers -/

theorem getD_setD_self {α : Type} (a : Array α) {i : Nat} (h : i < a.size) (v d : α) :
    (a.setD i v).getD i d = v := by
  have hset : a.setD i v = a.set ⟨i, h⟩ v := dif_pos h
  rw [hset]
  have h1 : i < (a.set ⟨i, h⟩ v).size := by simpa using h
  simp only [Array.getD]
  rw [dif_pos h1]
  simp [Array.get_eq_getElem]

theorem getD_setD_ne {α : Type} (a : Array α) {i j : Nat} (h : j ≠ i) (v d : α) :
    (a.setD i v).getD j d = a.getD j d := by
  by_cases hi : i < a.size
  · have hset : a.setD i v = a.set ⟨i, hi⟩ v := dif_pos hi
    rw [hset]
    by_cases hj : j < a.size
    · have h1 : j < (a.set ⟨i, hi⟩ v).size := by simpa using hj
      simp only [Array.getD]
      rw [dif_pos h1, dif_pos hj]
      simp only [Array.get_eq_getElem]
      exact Array.get_set_ne a ⟨i, hi⟩ v hj (fun hh => h hh.symm)
    · have h1 : ¬ j < (a.set ⟨i, hi⟩ v).size := by simpa using hj
      simp only [Array.getD]
      rw [dif_neg h1, dif_neg hj]
  · have hset : a.setD i v = a := dif_neg hi
    rw [hset]

theorem getD_mkArray {α : Type} {n i : Nat} (h : i < n) (v d : α) :
    (Array.mkArray n v).getD i d = v := by
  have hs : i < (Array.mkArray n v).size := by simpa using h
  simp only [Array.getD]
  rw [dif_pos hs]
  simp [Array.get_eq_getElem]

theorem setD_getD_same {α : Type} (a : Array α) (i : Nat) (d : α) :
    a.setD i (a.getD i d) = a := by
  by_cases hi : i < a.size
  · have hset : a.setD i (a.getD i d) = a.set ⟨i, hi⟩ (a.getD i d) := dif_pos hi
    rw [hset]
    apply Array.ext
    · simp
    · intro j h1 h2
      rw [Array.get_set _ _ j (by simpa using h1)]
      split
      · rename_i hij
        have : i = j := hij
        subst this
        exact Array.get_eq_getElem a ⟨i, hi⟩
      · rfl
  · exact dif_neg hi

/-! ### Spine-side lemmas about `linkOfAux` -/

theorem linkOfAux_of_not_mem {p : Option Nat} {xs : List Nat} {j : Nat} (h : j ∉ xs) :
    linkOfAux p xs j = default := by
  induction xs generalizing p with
  | nil => rfl
  | cons x rest ih =>
    simp only [List.mem_cons, not_or] at h
    simp only [linkOfAux]
    rw [if_neg (fun hh => h.1 hh.symm)]
    exact ih h.2

theorem linkOfAux_eq (p : Option Nat) (xs : List Nat) (j : Nat) :
    linkOfAux p xs j =
      ⟨(linkOf xs j).next, if xs.head? = some j then p else (linkOf xs j).prev⟩ := by
  cases xs with
  | nil => simp [linkOfAux, linkOf]
  | cons x rest =>
    by_cases hx : x = j
    · subst hx
      simp [linkOfAux, linkOf]
    · have hh : ¬ ((x :: rest).head? = some j) := by simpa using hx
      simp only [linkOfAux, linkOf, if_neg hx, if_neg hh]

theorem next_of_linkOfAux_mem {p : Option Nat} {xs : List Nat} {j k : Nat}
    (h : (linkOfAux p xs j).next = some k) : k ∈ xs := by
  induction xs generalizing p with
  | nil => simp [linkOfAux, default, Links.new] at h
  | cons x rest ih =>
    simp only [linkOfAux] at h
    split at h
    · simp only at h
      cases rest with
      | nil => simp at h
      | cons y r =>
        simp only [List.head?] at h
        cases h
        simp
    · exact List.mem_cons_of_mem _ (ih h)

theorem prev_of_linkOfAux_mem {p : Option Nat} {xs : List Nat} {j k : Nat}
    (h : (linkOfAux p xs j).prev = some k) : k ∈ xs ∨ p = some k := by
  induction xs generalizing p with
  | nil => simp [linkOfAux, default, Links.new] at h
  | cons x rest ih =>
    simp only [linkOfAux] at h
    split at h
    · simp only at h
      exact Or.inr h
    · rcases ih h with h1 | h1
      · exact Or.inl (List.mem_cons_of_mem _ h1)
      · cases h1
        exact Or.inl (List.mem_cons_self _ _)

theorem linkOfAux_cons_self (p : Option Nat) (x : Nat) (rest : List Nat) :
    linkOfAux p (x :: rest) x = ⟨rest.head?, p⟩ := by
  simp [linkOfAux]

theorem linkOfAux_cons_ne (p : Option Nat) {x i : Nat} (h : x ≠ i) (rest : List Nat) :
    linkOfAux p (x :: rest) i = linkOfAux (some x) rest i := by
  simp [linkOfAux, h]

theorem mem_of_head?_eq_some {l : List Nat} {k : Nat} (h : l.head? = some k) : k ∈ l := by
  cases l with
  | nil => cases h
  | cons y r =>
    rw [List.head?_cons] at h
    cases h
    exact List.mem_cons_self _ _

theorem linkOfAux_ne_self {p : Option Nat} {xs : List Nat} {j : Nat}
    (hnd : xs.Nodup) (hp : p ≠ some j) :
    (linkOfAux p xs j).next ≠ some j ∧ (linkOfAux p xs j).prev ≠ some j := by
  induction xs generalizing p with
  | nil => simp [linkOfAux, default, Links.new]
  | cons x rest ih =>
    simp only [List.nodup_cons] at hnd
    by_cases hx : x = j
    · subst hx
      rw [linkOfAux_cons_self]
      exact ⟨fun hn => hnd.1 (mem_of_head?_eq_some hn), hp⟩
    · rw [linkOfAux_cons_ne p hx]
      exact ih hnd.2 (fun hh => hx (by cases hh; rfl))

theorem linkOfAux_next_ne_prev {p : Option Nat} {xs : List Nat} {a k : Nat}
    (hnd : xs.Nodup) (hfresh : ∀ m, p = some m → m ∉ xs) :
    ¬((linkOfAux p xs a).next = some k ∧ (linkOfAux p xs a).prev = some k) := by
  induction xs generalizing p with
  | nil => simp [linkOfAux, default, Links.new]
  | cons x rest ih =>
    simp only [List.nodup_cons] at hnd
    rintro ⟨hn, hv⟩
    by_cases hx : x = a
    · subst hx
      rw [linkOfAux_cons_self] at hn hv
      simp only at hn hv
      exact hfresh k hv (List.mem_cons_of_mem _ (mem_of_head?_eq_some hn))
    · rw [linkOfAux_cons_ne p hx] at hn hv
      exact ih hnd.2 (fun m hm => by cases hm; exact hnd.1) ⟨hn, hv⟩

theorem linkOfAux_next_iff_prev {p : Option Nat} {xs : List Nat}
    (hnd : xs.Nodup) (hfresh : ∀ m, p = some m → m ∉ xs) (u v : Nat) :
    (linkOfAux p xs u).next = some v ↔
      ((linkOfAux p xs v).prev = some u ∧ u ∈ xs) := by
  induction xs generalizing p with
  | nil => simp [linkOfAux, default, Links.new]
  | cons x rest ih =>
    simp only [List.nodup_cons] at hnd
    have hfresh' : ∀ m, (some x : Option Nat) = some m → m ∉ rest := by
      intro m hm
      cases hm
      exact hnd.1
    by_cases hu : x = u
    · subst hu
      rw [linkOfAux_cons_self]
      simp only
      by_cases hv : x = v
      · subst hv
        rw [linkOfAux_cons_self]
        simp only
        constructor
        · intro hn
          exact absurd (mem_of_head?_eq_some hn) hnd.1
        · rintro ⟨hpx, -⟩
          exact absurd (List.mem_cons_self x rest) (hfresh x hpx)
      · rw [linkOfAux_cons_ne p hv, linkOfAux_eq (some x) rest v]
        simp only [List.mem_cons]
        constructor
        · intro hn
          rw [if_pos hn]
          exact ⟨rfl, Or.inl trivial⟩
        · rintro ⟨hv2, -⟩
          by_cases hh : rest.head? = some v
          · exact hh
          · rw [if_neg hh] at hv2
            rcases prev_of_linkOfAux_mem hv2 with hmem | hmem
            · exact absurd hmem hnd.1
            · simp [linkOf] at hmem
    · rw [linkOfAux_cons_ne p hu]
      by_cases hv : x = v
      · subst hv
        rw [linkOfAux_cons_self]
        simp only [List.mem_cons]
        constructor
        · intro hn
          exact absurd (next_of_linkOfAux_mem hn) hnd.1
        · rintro ⟨hpu, hmem⟩
          exact absurd hmem (by
            rintro (h1 | h1)
            · exact hu h1.symm
            · exact (hfresh u hpu) (List.mem_cons_of_mem _ h1))
      · rw [linkOfAux_cons_ne p hv, ih hnd.2 hfresh']
        simp only [List.mem_cons]
        constructor
        · rintro ⟨h1, h2⟩
          exact ⟨h1, Or.inr h2⟩
        · rintro ⟨h1, h2 | h2⟩
          · exact absurd h2.symm hu
          · exact ⟨h1, h2⟩

theorem head?_erase_of_ne {xs : List Nat} {a : Nat} (h : xs.head? ≠ some a) :
    (xs.erase a).head? = xs.head? := by
  cases xs with
  | nil => rfl
  | cons x rest =>
    have hx : ¬ x = a := by simpa using h
    rw [List.erase_cons_tail (by simpa using hx)]
    rfl

theorem head?_erase (xs : List Nat) (a : Nat) :
    (xs.erase a).head? =
      if xs.head? = some a then (linkOf xs a).next else xs.head? := by
  cases xs with
  | nil => rfl
  | cons x rest =>
    by_cases hx : x = a
    · subst hx
      rw [List.erase_cons_head]
      simp [linkOf, linkOfAux_cons_self]
    · rw [List.erase_cons_tail (by simpa using hx)]
      simp [hx]

theorem linkOfAux_erase {xs : List Nat} {a j : Nat} {p : Option Nat}
    (hnd : xs.Nodup) (hj : j ≠ a) (hp : p ≠ some a) :
    linkOfAux p (xs.erase a) j =
      ⟨if (linkOfAux p xs j).next = some a then (linkOfAux p xs a).next
          else (linkOfAux p xs j).next,
        if (linkOfAux p xs j).prev = some a then (linkOfAux p xs a).prev
          else (linkOfAux p xs j).prev⟩ := by
  induction xs generalizing p with
  | nil => simp [linkOfAux, default, Links.new]
  | cons x rest ih =>
    simp only [List.nodup_cons] at hnd
    by_cases hxa : x = a
    · subst hxa
      rw [List.erase_cons_head]
      rw [linkOfAux_cons_ne p (fun hh => hj hh.symm)]
      rw [linkOfAux_cons_self]
      rw [linkOfAux_eq p rest j, linkOfAux_eq (some x) rest j]
      simp only
      have hnext : (linkOf rest j).next ≠ some x := by
        intro hn
        exact hnd.1 (next_of_linkOfAux_mem hn)
      rw [if_neg hnext]
      by_cases hh : rest.head? = some j
      · rw [if_pos hh, if_pos hh, if_pos rfl]
      · rw [if_neg hh, if_neg hh]
        have hprev : (linkOf rest j).prev ≠ some x := by
          intro hv
          rcases prev_of_linkOfAux_mem hv with hmem | hmem
          · exact hnd.1 hmem
          · simp [linkOf] at hmem
        rw [if_neg hprev]
    · rw [List.erase_cons_tail (by simpa using hxa)]
      by_cases hxj : x = j
      · subst hxj
        rw [linkOfAux_cons_self, linkOfAux_cons_self,
          linkOfAux_cons_ne p (fun hh => hxa hh)]
        simp only
        rw [if_neg hp, head?_erase rest a]
        by_cases hh : rest.head? = some a
        · rw [if_pos hh, if_pos hh, linkOfAux_eq (some x) rest a]
        · rw [if_neg hh, if_neg hh]
      · rw [linkOfAux_cons_ne p hxj, linkOfAux_cons_ne p hxj,
          linkOfAux_cons_ne p (fun hh => hxa hh)]
        exact ih hnd.2 (fun hh => hxa (by cases hh; rfl))

theorem linkOf_cons (id : Nat) (xs : List Nat) (j : Nat) :
    linkOf (id :: xs) j =
      if j = id then ⟨xs.head?, none⟩
      else if xs.head? = some j then ⟨(linkOf xs j).next, some id⟩
      else linkOf xs j := by
  by_cases hj : j = id
  · subst hj
    rw [if_pos rfl, linkOf, linkOfAux_cons_self]
  · rw [if_neg hj, linkOf, linkOfAux_cons_ne none (fun hh => hj hh.symm),
      linkOfAux_eq (some id) xs j]
    by_cases hh : xs.head? = some j
    · rw [if_pos hh, if_pos hh]
    · rw [if_neg hh, if_neg hh]

theorem linkOfAux_concat_self {ys : List Nat} {a : Nat} (h : a ∉ ys) (p : Option Nat) :
    linkOfAux p (ys ++ [a]) a = ⟨none, if ys = [] then p else ys.getLast?⟩ := by
  induction ys generalizing p with
  | nil => simp [linkOfAux]
  | cons y r ih =>
    simp only [List.mem_cons, not_or] at h
    rw [List.cons_append, linkOfAux_cons_ne p (fun hh => h.1 hh.symm), ih h.2]
    simp only [List.cons_ne_nil, if_neg]
    cases r with
    | nil => simp
    | cons z r2 => simp

theorem linkOf_concat_self {ys : List Nat} {a : Nat} (h : a ∉ ys) :
    linkOf (ys ++ [a]) a = ⟨none, ys.getLast?⟩ := by
  rw [linkOf, linkOfAux_concat_self h none]
  cases ys with
  | nil => rfl
  | cons y r => simp

theorem linkOfAux_concat_prev {ys : List Nat} {x : Nat} (hx : x ∈ ys) (p : Option Nat)
    (a : Nat) : (linkOfAux p (ys ++ [a]) x).prev = (linkOfAux p ys x).prev := by
  induction ys generalizing p with
  | nil => cases hx
  | cons y r ih =>
    by_cases hyx : y = x
    · subst hyx
      rw [List.cons_append, linkOfAux_cons_self, linkOfAux_cons_self]
    · have hx' : x ∈ r := by
        rcases List.mem_cons.1 hx with hh | hh
        · exact absurd hh.symm hyx
        · exact hh
      rw [List.cons_append, linkOfAux_cons_ne p hyx, linkOfAux_cons_ne p hyx]
      exact ih hx' (some y)

theorem getLast?_cons_of_ne_nil {x : Nat} {L : List Nat} (h : L ≠ []) :
    (x :: L).getLast? = L.getLast? := by
  cases L with
  | nil => exact absurd rfl h
  | cons y r => exact List.getLast?_cons_cons

theorem linkOf_next_none_iff {xs : List Nat} {a : Nat} (hnd : xs.Nodup) (ha : a ∈ xs) :
    (linkOf xs a).next = none ↔ xs.getLast? = some a := by
  induction xs with
  | nil => cases ha
  | cons x rest ih =>
    simp only [List.nodup_cons] at hnd
    by_cases hx : x = a
    · subst hx
      rw [linkOf, linkOfAux_cons_self]
      simp only
      cases rest with
      | nil => simp
      | cons y r =>
        rw [List.getLast?_cons_cons, List.head?_cons]
        constructor
        · intro h
          cases h
        · intro h
          exact absurd (List.mem_of_getLast?_eq_some h) hnd.1
    · have ha' : a ∈ rest := by
        rcases List.mem_cons.1 ha with hh | hh
        · exact absurd hh.symm hx
        · exact hh
      rw [linkOf, linkOfAux_cons_ne none hx, linkOfAux_eq (some x) rest a]
      simp only
      rw [getLast?_cons_of_ne_nil (List.ne_nil_of_mem ha')]
      exact ih hnd.2 ha'

theorem linkOf_prev_none_iff {xs : List Nat} {a : Nat} (hnd : xs.Nodup) (ha : a ∈ xs) :
    (linkOf xs a).prev = none ↔ xs.head? = some a := by
  induction xs with
  | nil => cases ha
  | cons x rest ih =>
    simp only [List.nodup_cons] at hnd
    by_cases hx : x = a
    · subst hx
      rw [linkOf, linkOfAux_cons_self]
      simp
    · have ha' : a ∈ rest := by
        rcases List.mem_cons.1 ha with hh | hh
        · exact absurd hh.symm hx
        · exact hh
      rw [linkOf, linkOfAux_cons_ne none hx]
      rw [linkOfAux_eq (some x) rest a, List.head?_cons]
      simp only
      constructor
      · intro h
        exfalso
        by_cases hh : rest.head? = some a
        · rw [if_pos hh] at h
          cases h
        · rw [if_neg hh] at h
          exact hh ((ih hnd.2 ha').1 h)
      · intro h
        cases h
        exact absurd rfl hx

theorem getLast?_erase_of_ne {xs : List Nat} {a : Nat} (h : xs.getLast? ≠ some a) :
    (xs.erase a).getLast? = xs.getLast? := by
  induction xs with
  | nil => rfl
  | cons x rest ih =>
    by_cases hx : x = a
    · subst hx
      rw [List.erase_cons_head]
      cases rest with
      | nil => exact absurd (by simp) h
      | cons y r => rw [List.getLast?_cons_cons]
    · rw [List.erase_cons_tail (by simpa using hx)]
      cases rest with
      | nil => rfl
      | cons y r =>
        rw [List.getLast?_cons_cons] at h
        have h' := ih h
        have hne : (y :: r).erase a ≠ [] := by
          intro hnil
          rw [hnil] at h'
          exact (List.cons_ne_nil y r) (List.getLast?_eq_none_iff.1 h'.symm)
        rw [getLast?_cons_of_ne_nil hne, List.getLast?_cons_cons, h']

theorem getLast?_erase_self {xs : List Nat} {a : Nat} (hnd : xs.Nodup)
    (h : xs.getLast? = some a) : (xs.erase a).getLast? = (linkOf xs a).prev := by
  induction xs with
  | nil => cases h
  | cons x rest ih =>
    simp only [List.nodup_cons] at hnd
    cases rest with
    | nil =>
      have hx : x = a := by simpa using h
      subst hx
      rw [List.erase_cons_head, linkOf, linkOfAux_cons_self]
      rfl
    | cons y r =>
      rw [List.getLast?_cons_cons] at h
      have ha' : a ∈ y :: r := List.mem_of_getLast?_eq_some h
      have hx : ¬ x = a := fun hh => hnd.1 (hh ▸ ha')
      rw [List.erase_cons_tail (by simpa using hx), linkOf,
        linkOfAux_cons_ne none hx, linkOfAux_eq (some x) (y :: r) a]
      simp only
      by_cases hh : (y :: r).head? = some a
      · rw [if_pos hh]
        have hy : y = a := by simpa using hh
        subst hy
        cases r with
        | nil =>
          rw [List.erase_cons_head]
          simp
        | cons z r2 =>
          rw [List.getLast?_cons_cons] at h
          simp only [List.nodup_cons] at hnd
          exact absurd (List.mem_of_getLast?_eq_some h) hnd.2.1
      · rw [if_neg hh]
        have hy : ¬ y = a := by simpa using hh
        have hne : (y :: r).erase a ≠ [] := by
          rw [List.erase_cons_tail (by simpa using hy)]
          simp
        rw [getLast?_cons_of_ne_nil hne]
        exact ih hnd.2 h

theorem erase_getLast_eq_dropLast {xs : List Nat} {y : Nat} (hnd : xs.Nodup)
    (h : xs.getLast? = some y) : xs.erase y = xs.dropLast := by
  induction xs with
  | nil => cases h
  | cons x rest ih =>
    simp only [List.nodup_cons] at hnd
    cases rest with
    | nil =>
      have hx : x = y := by simpa using h
      subst hx
      rw [List.erase_cons_head]
      rfl
    | cons z r =>
      rw [List.getLast?_cons_cons] at h
      have hy' : y ∈ z :: r := List.mem_of_getLast?_eq_some h
      have hx : ¬ x = y := fun hh => hnd.1 (hh ▸ hy')
      rw [List.erase_cons_tail (by simpa using hx),
        show (x :: z :: r).dropLast = x :: (z :: r).dropLast from
          List.dropLast_cons_of_ne_nil (by simp),
        ih hnd.2 h]

theorem length_le_of_nodup_lt {xs : List Nat} {n : Nat} (hnd : xs.Nodup)
    (hb : ∀ x ∈ xs, x < n) : xs.length ≤ n := by
  have hsub : xs ⊆ List.range n := fun x hx => List.mem_range.2 (hb x hx)
  have hle := (List.subperm_of_subset hnd hsub).length_le
  simpa using hle

theorem chainBy_none (f : Nat → Option Nat) (fuel : Nat) : chainBy f fuel none = [] := by
  cases fuel <;> rfl

theorem chainBy_spec_next {f : Nat → Option Nat} :
    ∀ {xs : List Nat}, xs.Nodup → (∀ x ∈ xs, f x = (linkOf xs x).next) →
      ∀ {fuel : Nat}, xs.length ≤ fuel → chainBy f fuel xs.head? = xs := by
  intro xs
  induction xs with
  | nil =>
    intro _ _ fuel _
    exact chainBy_none f fuel
  | cons x rest ih =>
    intro hnd hf fuel hfuel
    simp only [List.nodup_cons] at hnd
    cases fuel with
    | zero => simp at hfuel
    | succ m =>
      rw [List.head?_cons]
      show x :: chainBy f m (f x) = x :: rest
      congr 1
      rw [hf x (List.mem_cons_self _ _), linkOf, linkOfAux_cons_self]
      show chainBy f m rest.head? = rest
      apply ih hnd.2
      · intro z hz
        rw [hf z (List.mem_cons_of_mem _ hz), linkOf,
          linkOfAux_cons_ne none (fun hh => hnd.1 (by rw [hh]; exact hz)),
          linkOfAux_eq (some x) rest z]
      · have hfuel' := hfuel
        simp only [List.length_cons] at hfuel'
        omega

theorem chainBy_spec_prev {f : Nat → Option Nat} :
    ∀ {xs : List Nat}, xs.Nodup → (∀ x ∈ xs, f x = (linkOf xs x).prev) →
      ∀ {fuel : Nat}, xs.length ≤ fuel → chainBy f fuel xs.getLast? = xs.reverse := by
  intro xs
  induction xs using List.reverseRecOn with
  | nil =>
    intro _ _ fuel _
    exact chainBy_none f fuel
  | append_singleton ys a ih =>
    intro hnd hf fuel hfuel
    have hys : ys.Nodup ∧ a ∉ ys := by
      rw [List.nodup_append] at hnd
      exact ⟨hnd.1, fun hmem => hnd.2.2 hmem (List.mem_singleton_self a)⟩
    rw [List.getLast?_concat]
    have hlen : ys.length + 1 ≤ fuel := by simpa using hfuel
    cases fuel with
    | zero => omega
    | succ m =>
      show a :: chainBy f m (f a) = (ys ++ [a]).reverse
      rw [hf a (by simp), linkOf_concat_self hys.2]
      show a :: chainBy f m ys.getLast? = (ys ++ [a]).reverse
      rw [List.reverse_append]
      show a :: chainBy f m ys.getLast? = a :: ys.reverse
      congr 1
      apply ih hys.1
      · intro z hz
        rw [hf z (List.mem_append_left _ hz), linkOf, linkOfAux_concat_prev hz none a,
          linkOf]
      · omega

theorem setD_setD {α : Type} (a : Array α) (i : Nat) (v w : α) :
    (a.setD i v).setD i w = a.setD i w := by
  by_cases hi : i < a.size
  · have h1 : a.setD i v = a.set ⟨i, hi⟩ v := dif_pos hi
    have h2 : a.setD i w = a.set ⟨i, hi⟩ w := dif_pos hi
    have h3 : i < (a.set ⟨i, hi⟩ v).size := by simpa using hi
    have h4 : (a.set ⟨i, hi⟩ v).setD i w = (a.set ⟨i, hi⟩ v).set ⟨i, h3⟩ w := dif_pos h3
    rw [h1, h2, h4, Array.set_set]
  · have h1 : a.setD i v = a := dif_neg hi
    rw [h1]

/-! ### Top-level corollaries about `linkOf` -/

theorem linkOf_next_mem {xs : List Nat} {j k : Nat} (h : (linkOf xs j).next = some k) :
    k ∈ xs :=
  next_of_linkOfAux_mem h

theorem linkOf_prev_mem {xs : List Nat} {j k : Nat} (h : (linkOf xs j).prev = some k) :
    k ∈ xs := by
  rcases prev_of_linkOfAux_mem h with h1 | h1
  · exact h1
  · cases h1

theorem linkOf_next_ne_self {xs : List Nat} (hnd : xs.Nodup) (j : Nat) :
    (linkOf xs j).next ≠ some j :=
  (linkOfAux_ne_self hnd (by simp)).1

theorem linkOf_prev_ne_self {xs : List Nat} (hnd : xs.Nodup) (j : Nat) :
    (linkOf xs j).prev ≠ some j :=
  (linkOfAux_ne_self hnd (by simp)).2

theorem linkOf_next_ne_prev {xs : List Nat} (hnd : xs.Nodup) {a k : Nat} :
    ¬((linkOf xs a).next = some k ∧ (linkOf xs a).prev = some k) :=
  linkOfAux_next_ne_prev hnd (by simp)

theorem linkOf_next_iff_prev {xs : List Nat} (hnd : xs.Nodup) (u v : Nat) :
    (linkOf xs u).next = some v ↔ ((linkOf xs v).prev = some u ∧ u ∈ xs) :=
  linkOfAux_next_iff_prev hnd (by simp) u v

theorem linkOf_erase {xs : List Nat} (hnd : xs.Nodup) {a j : Nat} (hj : j ≠ a) :
    linkOf (xs.erase a) j =
      ⟨if (linkOf xs j).next = some a then (linkOf xs a).next
          else (linkOf xs j).next,
        if (linkOf xs j).prev = some a then (linkOf xs a).prev
          else (linkOf xs j).prev⟩ :=
  linkOfAux_erase hnd hj (by simp)

theorem linkOf_erase_self {xs : List Nat} (hnd : xs.Nodup) (a : Nat) :
    linkOf (xs.erase a) a = default :=
  linkOfAux_of_not_mem (hnd.not_mem_erase)

theorem linkOf_of_not_mem {xs : List Nat} {j : Nat} (h : j ∉ xs) :
    linkOf xs j = default :=
  linkOfAux_of_not_mem h

/-! ### Characterizations of `remove` by the removed slot's stored links -/

theorem remove_oob {CAP : Nat} (l : LList CAP) {id : Nat} (h : CAP ≤ id) :
    l.remove id = l := by
  unfold LList.remove
  rw [if_neg (by omega)]

theorem remove_eq_none_none {CAP : Nat} {l : LList CAP} {a : Nat} (haC : a < CAP)
    (hsz : l.links.size = CAP)
    (hl : l.links.getD a default = ⟨none, none⟩) :
    l.remove a = ⟨l.links.setD a ⟨none, none⟩, none, none⟩ := by
  have ha' : a < l.links.size := by rw [hsz]; exact haC
  simp only [LList.remove, if_pos haC, hl, getD_setD_self _ ha', setD_setD]

theorem remove_eq_some_none {CAP : Nat} {l : LList CAP} {a p : Nat} (haC : a < CAP)
    (hsz : l.links.size = CAP)
    (hl : l.links.getD a default = ⟨none, some p⟩) :
    l.remove a =
      ⟨(l.links.setD p ⟨none, (l.links.getD p default).prev⟩).setD a ⟨none, none⟩,
        l.head, some p⟩ := by
  have ha' : a < (l.links.setD p ⟨none, (l.links.getD p default).prev⟩).size := by
    rw [Array.size_setD, hsz]; exact haC
  simp only [LList.remove, if_pos haC, hl, getD_setD_self _ ha', setD_setD]

theorem remove_eq_none_some {CAP : Nat} {l : LList CAP} {a n : Nat} (haC : a < CAP)
    (hsz : l.links.size = CAP)
    (hl : l.links.getD a default = ⟨some n, none⟩) :
    l.remove a =
      ⟨(l.links.setD n ⟨(l.links.getD n default).next, none⟩).setD a ⟨none, none⟩,
        some n, l.tail⟩ := by
  have ha' : a < (l.links.setD n ⟨(l.links.getD n default).next, none⟩).size := by
    rw [Array.size_setD, hsz]; exact haC
  simp only [LList.remove, if_pos haC, hl, getD_setD_self _ ha', setD_setD]

theorem remove_eq_some_some {CAP : Nat} {l : LList CAP} {a p n : Nat} (haC : a < CAP)
    (hsz : l.links.size = CAP) (hnp : n ≠ p)
    (hl : l.links.getD a default = ⟨some n, some p⟩) :
    l.remove a =
      ⟨((l.links.setD p ⟨some n, (l.links.getD p default).prev⟩).setD n
          ⟨(l.links.getD n default).next, some p⟩).setD a ⟨none, none⟩,
        l.head, l.tail⟩ := by
  have ha' : a < ((l.links.setD p ⟨some n, (l.links.getD p default).prev⟩).setD n
      ⟨(l.links.getD n default).next, some p⟩).size := by
    rw [Array.size_setD, Array.size_setD, hsz]; exact haC
  simp only [LList.remove, if_pos haC, hl, getD_setD_ne _ hnp, getD_setD_self _ ha',
    setD_setD]

/-! ### Characterizations of `pushFront` -/

theorem pushFront_eq_none_iff {CAP : Nat} (l : LList CAP) (id : Nat) :
    l.pushFront id = none ↔ CAP ≤ id := by
  unfold LList.pushFront
  by_cases h : id < CAP
  · rw [if_pos h]
    simp
    omega
  · rw [if_neg h]
    simp
    omega

theorem pushFront_of_head_none {CAP : Nat} {l : LList CAP} {id : Nat} (h : id < CAP)
    (hh : l.head = none) :
    l.pushFront id =
      some ⟨l.links.setD id ⟨none, none⟩, some id,
        if l.tail.isNone then some id else l.tail⟩ := by
  simp only [LList.pushFront, if_pos h, hh]

theorem pushFront_of_head_some {CAP : Nat} {l : LList CAP} {id oh : Nat} (h : id < CAP)
    (hoi : oh ≠ id) (hh : l.head = some oh) :
    l.pushFront id =
      some ⟨(l.links.setD id ⟨some oh, none⟩).setD oh
          ⟨(l.links.getD oh default).next, some id⟩,
        some id, if l.tail.isNone then some id else l.tail⟩ := by
  simp only [LList.pushFront, if_pos h, hh, getD_setD_ne _ hoi]

theorem getD_eq_getElem {α : Type} (a : Array α) {i : Nat} (h : i < a.size) (d : α) :
    a.getD i d = a[i] := by
  rw [show a.getD i d = a.get ⟨i, h⟩ from dif_pos h]
  exact Array.get_eq_getElem a ⟨i, h⟩

/-! ### The `Represents` relation and the list operations -/

theorem represents_new (CAP : Nat) : Represents (LList.new CAP) [] := by
  refine ⟨by simp [LList.new], List.nodup_nil, by simp, rfl, rfl, ?_⟩
  intro i hi
  show (Array.mkArray CAP Links.new).getD i default = linkOf [] i
  rw [getD_mkArray hi]
  rfl

theorem represents_unique {CAP : Nat} {l1 l2 : LList CAP} {xs : List Nat}
    (h1 : Represents l1 xs) (h2 : Represents l2 xs) : l1 = l2 := by
  obtain ⟨hsz1, -, -, hh1, ht1, hl1⟩ := h1
  obtain ⟨hsz2, -, -, hh2, ht2, hl2⟩ := h2
  have hA : l1.links = l2.links := by
    apply Array.ext
    · rw [hsz1, hsz2]
    · intro i hi1 hi2
      have hiC : i < CAP := by rw [← hsz1]; exact hi1
      rw [← getD_eq_getElem l1.links hi1 default, ← getD_eq_getElem l2.links hi2 default,
        hl1 i hiC, hl2 i hiC]
  obtain ⟨A1, hd1, tl1⟩ := l1
  obtain ⟨A2, hd2, tl2⟩ := l2
  simp only at hA hh1 ht1 hh2 ht2
  simp only [LList.mk.injEq]
  exact ⟨hA, by rw [hh1, hh2], by rw [ht1, ht2]⟩

theorem represents_pushFront {CAP : Nat} {l : LList CAP} {xs : List Nat} {id : Nat}
    (hrep : Represents l xs) (hid : id < CAP) (hmem : id ∉ xs) :
    ∃ l', l.pushFront id = some l' ∧ Represents l' (id :: xs) := by
  obtain ⟨hsz, hnd, hb, hhead, htail, hlinks⟩ := hrep
  have hid' : id < l.links.size := by rw [hsz]; exact hid
  cases xs with
  | nil =>
    have hh : l.head = none := by rw [hhead]; rfl
    have ht : l.tail = none := by rw [htail]; rfl
    refine ⟨_, pushFront_of_head_none hid hh, ?_, ?_, ?_, rfl, ?_, ?_⟩
    · simp [hsz]
    · simp
    · intro x hx
      have : x = id := by simpa using hx
      subst this
      exact hid
    · rw [ht]
      rfl
    · intro i hi
      by_cases hii : i = id
      · subst hii
        rw [getD_setD_self _ hid', linkOf, linkOfAux_cons_self]
        rfl
      · rw [getD_setD_ne _ hii, hlinks i hi,
          linkOf_of_not_mem (by simp [hii] : i ∉ [id])]
        rfl
  | cons x rest =>
    simp only [List.mem_cons, not_or] at hmem
    have hh : l.head = some x := by rw [hhead]; rfl
    have hxC : x < CAP := hb x (List.mem_cons_self _ _)
    have hxi : x ≠ id := fun hc => hmem.1 hc.symm
    have htne : l.tail.isNone = false := by
      rw [htail]
      rcases hgl : (x :: rest).getLast? with _ | t
      · exact absurd hgl (by simp)
      · rfl
    refine ⟨_, pushFront_of_head_some hid hxi hh, ?_, ?_, ?_, rfl, ?_, ?_⟩
    · simp [hsz]
    · simp only [List.nodup_cons] at hnd ⊢
      exact ⟨by simp only [List.mem_cons, not_or]; exact hmem, hnd⟩
    · intro y hy
      rcases List.mem_cons.1 hy with hy1 | hy1
      · subst hy1; exact hid
      · exact hb y hy1
    · rw [htne]
      simp only [if_neg Bool.false_ne_true]
      rw [htail, List.getLast?_cons_cons]
    · intro i hi
      rw [linkOf_cons id (x :: rest) i]
      by_cases hii : i = id
      · subst hii
        rw [if_pos rfl,
          getD_setD_ne _ (fun hc => hxi hc.symm),
          getD_setD_self _ hid']
        rfl
      · rw [if_neg hii]
        by_cases hix : i = x
        · subst hix
          have hi' : i < (l.links.setD id ⟨some i, none⟩).size := by
            rw [Array.size_setD, hsz]; exact hxC
          rw [getD_setD_self _ hi', if_pos (by rw [List.head?_cons]), hlinks i hi]
        · rw [getD_setD_ne _ hix, getD_setD_ne _ hii, hlinks i hi,
            if_neg (by rw [List.head?_cons]; exact fun hc => hix (by cases hc; rfl))]

theorem represents_remove_mem {CAP : Nat} {l : LList CAP} {xs : List Nat} {a : Nat}
    (hrep : Represents l xs) (ha : a ∈ xs) :
    Represents (l.remove a) (xs.erase a) := by
  obtain ⟨hsz, hnd, hb, hhead, htail, hlinks⟩ := hrep
  have haC : a < CAP := hb a ha
  have hla : l.links.getD a default = linkOf xs a := hlinks a haC
  have hndE : (xs.erase a).Nodup := hnd.erase a
  have hbE : ∀ x ∈ xs.erase a, x < CAP := fun x hx => hb x (List.mem_of_mem_erase hx)
  have haS : a < l.links.size := by rw [hsz]; exact haC
  rcases hL : linkOf xs a with ⟨nx, pv⟩
  have hNx : (linkOf xs a).next = nx := by rw [hL]
  have hPv : (linkOf xs a).prev = pv := by rw [hL]
  cases pv with
  | none =>
    have hh : xs.head? = some a := (linkOf_prev_none_iff hnd ha).1 hPv
    cases nx with
    | none =>
      have ht : xs.getLast? = some a := (linkOf_next_none_iff hnd ha).1 hNx
      rw [remove_eq_none_none haC hsz (by rw [hla, hL])]
      refine ⟨by simp [hsz], hndE, hbE, ?_, ?_, ?_⟩
      · show (none : Option Nat) = (xs.erase a).head?
        rw [head?_erase xs a, if_pos hh, hNx]
      · show (none : Option Nat) = (xs.erase a).getLast?
        rw [getLast?_erase_self hnd ht, hPv]
      · intro i hi
        by_cases hia : i = a
        · subst hia
          rw [getD_setD_self _ haS, linkOf_erase_self hnd]
          rfl
        · rw [getD_setD_ne _ hia, hlinks i hi, linkOf_erase hnd hia]
          have h1 : (linkOf xs i).next ≠ some a := by
            intro hc
            have hd := ((linkOf_next_iff_prev hnd i a).1 hc).1
            rw [hPv] at hd
            cases hd
          have h2 : (linkOf xs i).prev ≠ some a := by
            intro hc
            have hd := (linkOf_next_iff_prev hnd a i).2 ⟨hc, ha⟩
            rw [hNx] at hd
            cases hd
          rw [if_neg h1, if_neg h2]
    | some n =>
      have hn_mem : n ∈ xs := linkOf_next_mem hNx
      have hnC : n < CAP := hb n hn_mem
      have hna : n ≠ a := fun hc => linkOf_next_ne_self hnd a (hc ▸ hNx)
      have hnS : n < l.links.size := by rw [hsz]; exact hnC
      have hdn : (linkOf xs n).prev = some a :=
        ((linkOf_next_iff_prev hnd a n).1 hNx).1
      have htne : xs.getLast? ≠ some a := by
        intro hc
        have := (linkOf_next_none_iff hnd ha).2 hc
        rw [hNx] at this
        cases this
      rw [remove_eq_none_some haC hsz (by rw [hla, hL])]
      refine ⟨by simp [hsz], hndE, hbE, ?_, ?_, ?_⟩
      · show some n = (xs.erase a).head?
        rw [head?_erase xs a, if_pos hh, hNx]
      · show l.tail = (xs.erase a).getLast?
        rw [getLast?_erase_of_ne htne, htail]
      · intro i hi
        by_cases hia : i = a
        · subst hia
          rw [getD_setD_self _ (by rw [Array.size_setD]; exact haS),
            linkOf_erase_self hnd]
          rfl
        · rw [getD_setD_ne _ hia, linkOf_erase hnd hia]
          by_cases hin : i = n
          · subst hin
            rw [getD_setD_self _ hnS, hlinks i hi, if_pos hdn, hPv,
              if_neg (by
                intro hc
                have hd := ((linkOf_next_iff_prev hnd i a).1 hc).1
                rw [hPv] at hd
                cases hd)]
          · rw [getD_setD_ne _ hin, hlinks i hi]
            have h1 : (linkOf xs i).next ≠ some a := by
              intro hc
              have hd := ((linkOf_next_iff_prev hnd i a).1 hc).1
              rw [hPv] at hd
              cases hd
            have h2 : (linkOf xs i).prev ≠ some a := by
              intro hc
              have hd := (linkOf_next_iff_prev hnd a i).2 ⟨hc, ha⟩
              rw [hNx] at hd
              cases hd
              exact hin rfl
            rw [if_neg h1, if_neg h2]
  | some p =>
    have hp_mem : p ∈ xs := linkOf_prev_mem hPv
    have hpC : p < CAP := hb p hp_mem
    have hpa : p ≠ a := fun hc => linkOf_prev_ne_self hnd a (hc ▸ hPv)
    have hpS : p < l.links.size := by rw [hsz]; exact hpC
    have hdp : (linkOf xs p).next = some a :=
      (linkOf_next_iff_prev hnd p a).2 ⟨hPv, hp_mem⟩
    have hhne : xs.head? ≠ some a := by
      intro hc
      have := (linkOf_prev_none_iff hnd ha).2 hc
      rw [hPv] at this
      cases this
    cases nx with
    | none =>
      have ht : xs.getLast? = some a := (linkOf_next_none_iff hnd ha).1 hNx
      rw [remove_eq_some_none haC hsz (by rw [hla, hL])]
      refine ⟨by simp [hsz], hndE, hbE, ?_, ?_, ?_⟩
      · show l.head = (xs.erase a).head?
        rw [head?_erase xs a, if_neg hhne, hhead]
      · show some p = (xs.erase a).getLast?
        rw [getLast?_erase_self hnd ht, hPv]
      · intro i hi
        by_cases hia : i = a
        · subst hia
          rw [getD_setD_self _ (by rw [Array.size_setD]; exact haS),
            linkOf_erase_self hnd]
          rfl
        · rw [getD_setD_ne _ hia, linkOf_erase hnd hia]
          by_cases hip : i = p
          · subst hip
            rw [getD_setD_self _ hpS, hlinks i hi, if_pos hdp, hNx,
              if_neg (by
                intro hc
                have hd := (linkOf_next_iff_prev hnd a i).2 ⟨hc, ha⟩
                rw [hNx] at hd
                cases hd)]
          · rw [getD_setD_ne _ hip, hlinks i hi]
            have h1 : (linkOf xs i).next ≠ some a := by
              intro hc
              have hd := ((linkOf_next_iff_prev hnd i a).1 hc).1
              rw [hPv] at hd
              cases hd
              exact hip rfl
            have h2 : (linkOf xs i).prev ≠ some a := by
              intro hc
              have hd := (linkOf_next_iff_prev hnd a i).2 ⟨hc, ha⟩
              rw [hNx] at hd
              cases hd
            rw [if_neg h1, if_neg h2]
    | some n =>
      have hn_mem : n ∈ xs := linkOf_next_mem hNx
      have hnC : n < CAP := hb n hn_mem
      have hna : n ≠ a := fun hc => linkOf_next_ne_self hnd a (hc ▸ hNx)
      have hdn : (linkOf xs n).prev = some a :=
        ((linkOf_next_iff_prev hnd a n).1 hNx).1
      have hnp : n ≠ p := by
        intro hc
        subst hc
        exact linkOf_next_ne_prev hnd ⟨hNx, hPv⟩
      have htne : xs.getLast? ≠ some a := by
        intro hc
        have := (linkOf_next_none_iff hnd ha).2 hc
        rw [hNx] at this
        cases this
      rw [remove_eq_some_some haC hsz hnp (by rw [hla, hL])]
      refine ⟨by simp [hsz], hndE, hbE, ?_, ?_, ?_⟩
      · show l.head = (xs.erase a).head?
        rw [head?_erase xs a, if_neg hhne, hhead]
      · show l.tail = (xs.erase a).getLast?
        rw [getLast?_erase_of_ne htne, htail]
      · intro i hi
        by_cases hia : i = a
        · subst hia
          rw [getD_setD_self _ (by rw [Array.size_setD, Array.size_setD]; exact haS),
            linkOf_erase_self hnd]
          rfl
        · rw [getD_setD_ne _ hia, linkOf_erase hnd hia]
          by_cases hin : i = n
          · subst hin
            rw [getD_setD_self _ (by rw [Array.size_setD]; exact (by rw [hsz]; exact hnC)),
              hlinks i hi, if_pos hdn, hPv,
              if_neg (by
                intro hc
                have hd := ((linkOf_next_iff_prev hnd i a).1 hc).1
                rw [hPv] at hd
                cases hd
                exact hnp rfl)]
          · rw [getD_setD_ne _ hin]
            by_cases hip : i = p
            · subst hip
              rw [getD_setD_self _ hpS, hlinks i hi, if_pos hdp, hNx,
                if_neg (by
                  intro hc
                  have hd := (linkOf_next_iff_prev hnd a i).2 ⟨hc, ha⟩
                  rw [hNx] at hd
                  cases hd
                  exact hnp rfl)]
            · rw [getD_setD_ne _ hip, hlinks i hi]
              have h1 : (linkOf xs i).next ≠ some a := by
                intro hc
                have hd := ((linkOf_next_iff_prev hnd i a).1 hc).1
                rw [hPv] at hd
                cases hd
                exact hip rfl
              have h2 : (linkOf xs i).prev ≠ some a := by
                intro hc
                have hd := (linkOf_next_iff_prev hnd a i).2 ⟨hc, ha⟩
                rw [hNx] at hd
                cases hd
                exact hin rfl
              rw [if_neg h1, if_neg h2]

theorem remove_unlinked {CAP : Nat} {l : LList CAP} {xs : List Nat} {a : Nat}
    (hrep : Represents l xs) (haC : a < CAP) (hmem : a ∉ xs) :
    l.remove a = ⟨l.links, none, none⟩ := by
  obtain ⟨hsz, -, -, -, -, hlinks⟩ := hrep
  have hla : l.links.getD a default = ⟨none, none⟩ := by
    rw [hlinks a haC, linkOf_of_not_mem hmem]
    rfl
  rw [remove_eq_none_none haC hsz hla]
  have hsame := setD_getD_same l.links a default
  rw [hla] at hsame
  rw [hsame]

theorem toListFwd_eq {CAP : Nat} {l : LList CAP} {xs : List Nat}
    (hrep : Represents l xs) : l.toListFwd = xs := by
  obtain ⟨hsz, hnd, hb, hhead, htail, hlinks⟩ := hrep
  rw [LList.toListFwd, hhead]
  exact chainBy_spec_next hnd (fun x hx => by rw [hlinks x (hb x hx)])
    (length_le_of_nodup_lt hnd hb)

theorem toListBwd_eq {CAP : Nat} {l : LList CAP} {xs : List Nat}
    (hrep : Represents l xs) : l.toListBwd = xs.reverse := by
  obtain ⟨hsz, hnd, hb, hhead, htail, hlinks⟩ := hrep
  rw [LList.toListBwd, htail]
  exact chainBy_spec_prev hnd (fun x hx => by rw [hlinks x (hb x hx)])
    (length_le_of_nodup_lt hnd hb)

theorem Represents.size_eq {CAP : Nat} {l : LList CAP} {xs : List Nat}
    (h : Represents l xs) : l.links.size = CAP := h.1

theorem Represents.nodup {CAP : Nat} {l : LList CAP} {xs : List Nat}
    (h : Represents l xs) : xs.Nodup := h.2.1

theorem Represents.bounds {CAP : Nat} {l : LList CAP} {xs : List Nat}
    (h : Represents l xs) : ∀ x ∈ xs, x < CAP := h.2.2.1

theorem Represents.head_eq {CAP : Nat} {l : LList CAP} {xs : List Nat}
    (h : Represents l xs) : l.head = xs.head? := h.2.2.2.1

theorem Represents.tail_eq {CAP : Nat} {l : LList CAP} {xs : List Nat}
    (h : Represents l xs) : l.tail = xs.getLast? := h.2.2.2.2.1

theorem Represents.links_eq {CAP : Nat} {l : LList CAP} {xs : List Nat}
    (h : Represents l xs) : ∀ i, i < CAP → l.links.getD i default = linkOf xs i :=
  h.2.2.2.2.2

theorem popFront_empty {CAP : Nat} {l : LList CAP} (h : l.head = none) :
    l.popFront = (none, l) := by
  simp only [LList.popFront, h]

theorem popFront_cons {CAP : Nat} {l : LList CAP} {y : Nat} (h : l.head = some y) :
    l.popFront = (some y, l.remove y) := by
  simp only [LList.popFront, h]

theorem popBack_empty {CAP : Nat} {l : LList CAP} (h : l.tail = none) :
    l.popBack = (none, l) := by
  simp only [LList.popBack, h]

theorem popBack_some {CAP : Nat} {l : LList CAP} {t : Nat} (h : l.tail = some t) :
    l.popBack = (some t, l.remove t) := by
  simp only [LList.popBack, h]

theorem popFront_fst {CAP : Nat} (l : LList CAP) : l.popFront.1 = l.head := by
  cases h : l.head with
  | none => rw [popFront_empty h]
  | some y => rw [popFront_cons h]

theorem popBack_fst {CAP : Nat} (l : LList CAP) : l.popBack.1 = l.tail := by
  cases h : l.tail with
  | none => rw [popBack_empty h]
  | some t => rw [popBack_some h]

theorem represents_invariants {CAP : Nat} {l : LList CAP} {xs : List Nat}
    (hrep : Represents l xs) :
    (l.head = none ↔ l.tail = none) ∧ (l.isEmpty = true ↔ l.toListFwd = []) ∧
      l.toListFwd.Nodup ∧ l.toListFwd.length ≤ CAP ∧
      (∀ x ∈ l.toListFwd, x < CAP) ∧ l.toListBwd = l.toListFwd.reverse ∧
      (l.head = none ↔ l.toListFwd = []) := by
  have hfwd := toListFwd_eq hrep
  have hbwd := toListBwd_eq hrep
  refine ⟨?_, ?_, ?_, ?_, ?_, ?_, ?_⟩
  · rw [hrep.head_eq, hrep.tail_eq]
    simp
  · rw [LList.isEmpty, hrep.head_eq, hfwd]
    simp [Option.isNone_iff_eq_none]
  · rw [hfwd]
    exact hrep.nodup
  · rw [hfwd]
    exact length_le_of_nodup_lt hrep.nodup hrep.bounds
  · rw [hfwd]
    exact hrep.bounds
  · rw [hfwd, hbwd]
  · rw [hrep.head_eq, hfwd]
    simp

theorem execOps_represents {CAP : Nat} :
    ∀ (ops : List Op) (l : LList CAP) (xs : List Nat), Represents l xs →
      opsOk l ops = true →
      ∃ ys l', execOps l ops = some l' ∧ Represents l' ys := by
  intro ops
  induction ops with
  | nil =>
    intro l xs hrep _
    exact ⟨xs, l, rfl, hrep⟩
  | cons op rest ih =>
    intro l xs hrep hok
    simp only [opsOk, Bool.and_eq_true] at hok
    obtain ⟨hop, hrest⟩ := hok
    cases op with
    | push id =>
      simp only [opOk, Bool.and_eq_true, decide_eq_true_eq] at hop
      obtain ⟨hid, hnm⟩ := hop
      rw [toListFwd_eq hrep] at hnm
      obtain ⟨l', hpush, hrep'⟩ := represents_pushFront hrep hid hnm
      simp only [execOp, hpush] at hrest
      simp only [execOps, execOp, hpush]
      exact ih l' (id :: xs) hrep' hrest
    | rem id =>
      simp only [opOk, Bool.or_eq_true, decide_eq_true_eq] at hop
      simp only [execOp] at hrest
      simp only [execOps, execOp]
      rcases hop with hop | hop
      · rw [remove_oob l hop] at hrest ⊢
        exact ih l xs hrep hrest
      · rw [toListFwd_eq hrep] at hop
        exact ih _ (xs.erase id) (represents_remove_mem hrep hop) hrest
    | popF =>
      simp only [execOp] at hrest
      simp only [execOps, execOp]
      cases xs with
      | nil =>
        have hh : l.head = none := by rw [hrep.head_eq]; rfl
        rw [popFront_empty hh] at hrest ⊢
        exact ih l [] hrep hrest
      | cons y ys =>
        have hh : l.head = some y := by rw [hrep.head_eq]; rfl
        have hrm := represents_remove_mem hrep (List.mem_cons_self y ys)
        rw [List.erase_cons_head] at hrm
        rw [popFront_cons hh] at hrest ⊢
        exact ih _ ys hrm hrest
    | popB =>
      simp only [execOp] at hrest
      simp only [execOps, execOp]
      cases hgl : xs.getLast? with
      | none =>
        have hxs : xs = [] := List.getLast?_eq_none_iff.1 hgl
        have ht : l.tail = none := by rw [hrep.tail_eq, hgl]
        rw [popBack_empty ht] at hrest ⊢
        exact ih l xs hrep hrest
      | some t =>
        have ht : l.tail = some t := by rw [hrep.tail_eq, hgl]
        have htm : t ∈ xs := List.mem_of_getLast?_eq_some hgl
        rw [popBack_some ht] at hrest ⊢
        exact ih _ (xs.erase t) (represents_remove_mem hrep htm) hrest

/-! ### Claim theorems -/

/-- C1, counterexample: the sequence `c1ops` satisfies the claim's frozen
precondition (every `push_front` argument in range and not currently linked;
removes unconstrained), yet the final state has a present head and an absent
tail, refuting the invariant `head.is_none == tail.is_none == (list is
empty)`.  The second remove targets an unlinked id on a non-empty (orphaned)
structure, and `remove` then resurrects `head` from the stale links while
leaving `tail` absent. -/
theorem c1_invariants_counterexample :
    opsOkClaim (LList.new 3) c1ops = true ∧
      execOps (LList.new 3) c1ops = some c1bad ∧
      c1bad.head ≠ none ∧ c1bad.tail = none := by decide

/-- C1 (amended): for every sequence of push_front/remove/pop_front/pop_back
operations on a fresh list of capacity CAP in which every push_front argument
is in range and not currently linked AND every remove argument is out of
range or currently linked, execution succeeds and the final list is
well-formed: head is absent exactly when tail is absent exactly when the
list is empty; the forward traversal visits each linked id exactly once,
contains at most CAP distinct in-range ids, and equals the reverse of the
backward traversal. -/
theorem c1_invariants_amended (CAP : Nat) (ops : List Op)
    (hok : opsOk (LList.new CAP) ops = true) :
    ∃ l', execOps (LList.new CAP) ops = some l' ∧
      (l'.head = none ↔ l'.tail = none) ∧
      (l'.isEmpty = true ↔ l'.toListFwd = []) ∧
      l'.toListFwd.Nodup ∧
      l'.toListFwd.length ≤ CAP ∧
      (∀ x ∈ l'.toListFwd, x < CAP) ∧
      l'.toListBwd = l'.toListFwd.reverse ∧
      (l'.head = none ↔ l'.toListFwd = []) := by
  obtain ⟨ys, l', hexec, hrep⟩ :=
    execOps_represents ops (LList.new CAP) [] (represents_new CAP) hok
  exact ⟨l', hexec, represents_invariants hrep⟩

/-- Witness for C1 (amended) at CAP = 2 and ops = [push 0, pop_front]. -/
theorem c1_invariants_amended_witness :
    opsOk (LList.new 2) [Op.push 0, Op.popF] = true ∧
      ∃ l', execOps (LList.new 2) [Op.push 0, Op.popF] = some l' ∧
        (l'.head = none ↔ l'.tail = none) ∧
        (l'.isEmpty = true ↔ l'.toListFwd = []) ∧
        l'.toListFwd.Nodup ∧
        l'.toListFwd.length ≤ 2 ∧
        (∀ x ∈ l'.toListFwd, x < 2) ∧
        l'.toListBwd = l'.toListFwd.reverse ∧
        (l'.head = none ↔ l'.toListFwd = []) :=
  ⟨by decide, c1_invariants_amended 2 [Op.push 0, Op.popF] (by decide)⟩

/-- C2: removing a linked id detaches it correctly: the remaining state
encodes the original spine with the id deleted, the removed slot's own links
are cleared, the id is unreachable from both traversals, its former
neighbours are rewired to point at each other, and head/tail change exactly
when the id was the corresponding endpoint. -/
theorem c2_remove_detaches {CAP : Nat} {l : LList CAP} {xs : List Nat} {a : Nat}
    (hrep : Represents l xs) (ha : a ∈ xs) :
    Represents (l.remove a) (xs.erase a) ∧
      (l.remove a).links.getD a default = ⟨none, none⟩ ∧
      a ∉ (l.remove a).toListFwd ∧
      a ∉ (l.remove a).toListBwd ∧
      (l.remove a).toListFwd = xs.erase a ∧
      (∀ p n, (l.links.getD a default).prev = some p →
          (l.links.getD a default).next = some n →
          ((l.remove a).links.getD p default).next = some n ∧
          ((l.remove a).links.getD n default).prev = some p) ∧
      (xs.head? ≠ some a → (l.remove a).head = l.head) ∧
      (xs.head? = some a → (l.remove a).head = (l.links.getD a default).next) ∧
      (xs.getLast? ≠ some a → (l.remove a).tail = l.tail) ∧
      (xs.getLast? = some a → (l.remove a).tail = (l.links.getD a default).prev) := by
  have haC : a < CAP := hrep.bounds a ha
  have hla := hrep.links_eq a haC
  have hnd := hrep.nodup
  have hrep' := represents_remove_mem hrep ha
  refine ⟨hrep', ?_, ?_, ?_, toListFwd_eq hrep', ?_, ?_, ?_, ?_, ?_⟩
  · rw [hrep'.links_eq a haC, linkOf_erase_self hnd]
    rfl
  · rw [toListFwd_eq hrep']
    exact hnd.not_mem_erase
  · rw [toListBwd_eq hrep', List.mem_reverse]
    exact hnd.not_mem_erase
  · intro p n hp hn
    rw [hla] at hp hn
    have hp_mem : p ∈ xs := linkOf_prev_mem hp
    have hn_mem : n ∈ xs := linkOf_next_mem hn
    have hpC : p < CAP := hrep.bounds p hp_mem
    have hnC : n < CAP := hrep.bounds n hn_mem
    have hpa : p ≠ a := fun hc => linkOf_prev_ne_self hnd a (hc ▸ hp)
    have hna : n ≠ a := fun hc => linkOf_next_ne_self hnd a (hc ▸ hn)
    have hdp : (linkOf xs p).next = some a :=
      (linkOf_next_iff_prev hnd p a).2 ⟨hp, hp_mem⟩
    have hdn : (linkOf xs n).prev = some a :=
      ((linkOf_next_iff_prev hnd a n).1 hn).1
    constructor
    · rw [hrep'.links_eq p hpC, linkOf_erase hnd hpa]
      simp only
      rw [if_pos hdp, hn]
    · rw [hrep'.links_eq n hnC, linkOf_erase hnd hna]
      simp only
      rw [if_pos hdn, hp]
  · intro hne
    rw [hrep'.head_eq, head?_erase xs a, if_neg hne, hrep.head_eq]
  · intro heq
    rw [hrep'.head_eq, head?_erase xs a, if_pos heq, hla]
  · intro hne
    rw [hrep'.tail_eq, getLast?_erase_of_ne hne, hrep.tail_eq]
  · intro heq
    rw [hrep'.tail_eq, getLast?_erase_self hnd heq, hla]

/-- Witness for C2: removing id 0 from the two-element list `[0, 1]`. -/
theorem c2_remove_detaches_witness :
    Represents c2list [0, 1] ∧ 0 ∈ [0, 1] ∧
      (Represents (c2list.remove 0) ([0, 1].erase 0) ∧
        (c2list.remove 0).links.getD 0 default = ⟨none, none⟩ ∧
        0 ∉ (c2list.remove 0).toListFwd ∧
        0 ∉ (c2list.remove 0).toListBwd ∧
        (c2list.remove 0).toListFwd = [0, 1].erase 0 ∧
        (∀ p n, (c2list.links.getD 0 default).prev = some p →
            (c2list.links.getD 0 default).next = some n →
            ((c2list.remove 0).links.getD p default).next = some n ∧
            ((c2list.remove 0).links.getD n default).prev = some p) ∧
        (([0, 1] : List Nat).head? ≠ some 0 → (c2list.remove 0).head = c2list.head) ∧
        (([0, 1] : List Nat).head? = some 0 →
          (c2list.remove 0).head = (c2list.links.getD 0 default).next) ∧
        (([0, 1] : List Nat).getLast? ≠ some 0 → (c2list.remove 0).tail = c2list.tail) ∧
        (([0, 1] : List Nat).getLast? = some 0 →
          (c2list.remove 0).tail = (c2list.links.getD 0 default).prev)) :=
  ⟨by decide, by decide, @c2_remove_detaches 2 c2list [0, 1] 0 (by decide) (by decide)⟩

/-- C3, counterexample: on the well-formed capacity-2 list with spine `[0]`,
removing the in-range unlinked id 1 does not leave the state unchanged: it
clears `head` and `tail`, so `remove` is not idempotent-safe as claimed. -/
theorem c3_remove_unlinked_counterexample :
    Represents c3list [0] ∧ 1 < 2 ∧ (1 ∉ [0]) ∧ c3list.remove 1 ≠ c3list := by decide

/-- C3 (amended): removing an in-range id that is not currently linked leaves
every link field unchanged but unconditionally sets `head` and `tail` to
absent; consequently the whole state is unchanged if and only if the list was
already empty (so `remove` is idempotent only in that case). -/
theorem c3_remove_unlinked_amended {CAP : Nat} {l : LList CAP} {xs : List Nat}
    {a : Nat} (hrep : Represents l xs) (haC : a < CAP) (hmem : a ∉ xs) :
    l.remove a = ⟨l.links, none, none⟩ ∧ (l.remove a = l ↔ xs = []) := by
  have h1 := remove_unlinked hrep haC hmem
  refine ⟨h1, ?_, ?_⟩
  · intro he
    have hh0 := congrArg LList.head he
    rw [h1] at hh0
    have hh : l.head = none := hh0.symm
    rw [hrep.head_eq] at hh
    exact List.head?_eq_none_iff.1 hh
  · intro hxs
    subst hxs
    rw [h1]
    exact @represents_unique CAP ⟨l.links, none, none⟩ l []
      ⟨hrep.size_eq, hrep.nodup, hrep.bounds, rfl, rfl, hrep.links_eq⟩ hrep

/-- Witness for C3 (amended): removing id 0 from an empty capacity-1 list. -/
theorem c3_remove_unlinked_amended_witness :
    Represents (LList.new 1) [] ∧ 0 < 1 ∧ ((0 : Nat) ∉ ([] : List Nat)) ∧
      ((LList.new 1).remove 0 = ⟨(LList.new 1).links, none, none⟩ ∧
        ((LList.new 1).remove 0 = LList.new 1 ↔ ([] : List Nat) = [])) :=
  ⟨by decide, by decide, by decide,
    @c3_remove_unlinked_amended 1 (LList.new 1) [] 0 (by decide) (by decide) (by decide)⟩

/-- C4: pushing an in-range, not-currently-linked id onto a well-formed list
makes it the new head with absent `prev` and `next` equal to the old head; if
the list was empty the id also becomes the tail (otherwise the tail is
unchanged); and no link changes beyond the pushed slot and the old head's
`prev`. -/
theorem c4_push_front_spec {CAP : Nat} {l : LList CAP} {xs : List Nat} {id : Nat}
    (hrep : Represents l xs) (hid : id < CAP) (hmem : id ∉ xs) :
    ∃ l', l.pushFront id = some l' ∧
      l'.head = some id ∧
      (l'.links.getD id default).prev = none ∧
      (l'.links.getD id default).next = l.head ∧
      (l.isEmpty = true → l'.tail = some id) ∧
      (l.isEmpty = false → l'.tail = l.tail) ∧
      (∀ j, j < CAP → j ≠ id → l.head ≠ some j →
        l'.links.getD j default = l.links.getD j default) ∧
      (∀ oh, l.head = some oh →
        l'.links.getD oh default = ⟨(l.links.getD oh default).next, some id⟩) := by
  obtain ⟨l', hpush, hrep'⟩ := represents_pushFront hrep hid hmem
  refine ⟨l', hpush, ?_, ?_, ?_, ?_, ?_, ?_, ?_⟩
  · rw [hrep'.head_eq]
    rfl
  · rw [hrep'.links_eq id hid, linkOf_cons, if_pos rfl]
  · rw [hrep'.links_eq id hid, linkOf_cons, if_pos rfl, hrep.head_eq]
  · intro hemp
    have hh : l.head = none := by
      rw [LList.isEmpty] at hemp
      exact Option.isNone_iff_eq_none.1 hemp
    have hxs : xs = [] := by
      rw [hrep.head_eq] at hh
      exact List.head?_eq_none_iff.1 hh
    subst hxs
    rw [hrep'.tail_eq]
    rfl
  · intro hemp
    have hxs : xs ≠ [] := by
      intro hc
      subst hc
      rw [LList.isEmpty, hrep.head_eq] at hemp
      cases hemp
    rw [hrep'.tail_eq, hrep.tail_eq, getLast?_cons_of_ne_nil hxs]
  · intro j hj hji hjh
    rw [hrep.head_eq] at hjh
    rw [hrep'.links_eq j hj, hrep.links_eq j hj, linkOf_cons, if_neg hji,
      if_neg (fun hc => hjh hc)]
  · intro oh hoh
    rw [hrep.head_eq] at hoh
    have hohm : oh ∈ xs := mem_of_head?_eq_some hoh
    have hohC : oh < CAP := hrep.bounds oh hohm
    have hohid : oh ≠ id := fun hc => hmem (hc ▸ hohm)
    rw [hrep'.links_eq oh hohC, linkOf_cons, if_neg hohid, if_pos hoh,
      hrep.links_eq oh hohC]

/-- Witness for C4: pushing id 0 onto an empty capacity-2 list. -/
theorem c4_push_front_spec_witness :
    Represents (LList.new 2) [] ∧ 0 < 2 ∧ ((0 : Nat) ∉ ([] : List Nat)) ∧
      (∃ l', (LList.new 2).pushFront 0 = some l' ∧
        l'.head = some 0 ∧
        (l'.links.getD 0 default).prev = none ∧
        (l'.links.getD 0 default).next = (LList.new 2).head ∧
        ((LList.new 2).isEmpty = true → l'.tail = some 0) ∧
        ((LList.new 2).isEmpty = false → l'.tail = (LList.new 2).tail) ∧
        (∀ j, j < 2 → j ≠ 0 → (LList.new 2).head ≠ some j →
          l'.links.getD j default = (LList.new 2).links.getD j default) ∧
        (∀ oh, (LList.new 2).head = some oh →
          l'.links.getD oh default =
            ⟨((LList.new 2).links.getD oh default).next, some 0⟩)) :=
  ⟨by decide, by decide, by decide,
    @c4_push_front_spec 2 (LList.new 2) [] 0 (by decide) (by decide) (by decide)⟩

/-- C5, counterexample: on the well-formed capacity-1 list whose single
linked id is 0, `push_front 0` does not fail (its only assertion is the
range check): it silently proceeds and produces a state whose slot 0 links
to itself. -/
theorem c5_push_front_counterexample :
    Represents c5list [0] ∧ 0 ∈ c5list.toListFwd ∧
      c5list.pushFront 0 ≠ none ∧
      c5list.pushFront 0 = some ⟨#[⟨some 0, some 0⟩], some 0, some 0⟩ := by decide

/-- C5 (amended): on a well-formed list, `push_front id` fails by contract
violation (assertion panic) exactly when `id ≥ CAP`; an already-linked
in-range id is not detected — the call silently proceeds — so callers must
remove an id before re-inserting it. -/
theorem c5_push_front_assert_amended {CAP : Nat} {l : LList CAP} {xs : List Nat}
    (id : Nat) (_hrep : Represents l xs) :
    (l.pushFront id = none ↔ CAP ≤ id) ∧
      (∀ l', l.pushFront id = some l' → id < CAP) := by
  refine ⟨pushFront_eq_none_iff l id, ?_⟩
  intro l' h
  by_cases hc : id < CAP
  · exact hc
  · rw [(pushFront_eq_none_iff l id).2 (by omega)] at h
    cases h

/-- Witness for C5 (amended): the empty capacity-1 list and id 3. -/
theorem c5_push_front_assert_amended_witness :
    Represents (LList.new 1) [] ∧
      (((LList.new 1).pushFront 3 = none ↔ 1 ≤ 3) ∧
        (∀ l', (LList.new 1).pushFront 3 = some l' → 3 < 1)) :=
  ⟨by decide, @c5_push_front_assert_amended 1 (LList.new 1) [] 3 (by decide)⟩

/-- C6: `pop_front` (resp. `pop_back`) returns the current head (resp. tail)
id and removes it when the list is non-empty, and returns the absent value
exactly when the list is empty, leaving the state unchanged in that case. -/
theorem c6_pop_spec {CAP : Nat} {l : LList CAP} {xs : List Nat}
    (hrep : Represents l xs) :
    (xs = [] → l.popFront = (none, l) ∧ l.popBack = (none, l)) ∧
      (l.popFront.1 = none ↔ xs = []) ∧
      (l.popBack.1 = none ↔ xs = []) ∧
      (∀ y ys, xs = y :: ys → l.popFront.1 = some y ∧ Represents l.popFront.2 ys) ∧
      (xs ≠ [] → l.popBack.1 = xs.getLast? ∧ Represents l.popBack.2 xs.dropLast) := by
  refine ⟨?_, ?_, ?_, ?_, ?_⟩
  · intro hxs
    subst hxs
    have hh : l.head = none := by rw [hrep.head_eq]; rfl
    have ht : l.tail = none := by rw [hrep.tail_eq]; rfl
    exact ⟨popFront_empty hh, popBack_empty ht⟩
  · rw [popFront_fst, hrep.head_eq]
    simp
  · rw [popBack_fst, hrep.tail_eq]
    simp
  · intro y ys hxs
    subst hxs
    have hh : l.head = some y := by rw [hrep.head_eq]; rfl
    rw [popFront_cons hh]
    refine ⟨rfl, ?_⟩
    have hrm := represents_remove_mem hrep (List.mem_cons_self y ys)
    rw [List.erase_cons_head] at hrm
    exact hrm
  · intro hxs
    rcases hgl : xs.getLast? with _ | t
    · exact absurd (List.getLast?_eq_none_iff.1 hgl) hxs
    · have ht : l.tail = some t := by rw [hrep.tail_eq, hgl]
      rw [popBack_some ht]
      refine ⟨rfl, ?_⟩
      have hrm := represents_remove_mem hrep (List.mem_of_getLast?_eq_some hgl)
      rw [erase_getLast_eq_dropLast hrep.nodup hgl] at hrm
      exact hrm

/-- Witness for C6: the capacity-2 list with spine `[1, 0]`. -/
theorem c6_pop_spec_witness :
    Represents c6list [1, 0] ∧
      ((([1, 0] : List Nat) = [] →
          c6list.popFront = (none, c6list) ∧ c6list.popBack = (none, c6list)) ∧
        (c6list.popFront.1 = none ↔ ([1, 0] : List Nat) = []) ∧
        (c6list.popBack.1 = none ↔ ([1, 0] : List Nat) = []) ∧
        (∀ y ys, ([1, 0] : List Nat) = y :: ys →
          c6list.popFront.1 = some y ∧ Represents c6list.popFront.2 ys) ∧
        (([1, 0] : List Nat) ≠ [] →
          c6list.popBack.1 = ([1, 0] : List Nat).getLast? ∧
            Represents c6list.popBack.2 ([1, 0] : List Nat).dropLast)) :=
  ⟨by decide, @c6_pop_spec 2 c6list [1, 0] (by decide)⟩

/-- C7: for every list state and every id with `id ≥ CAP`, `remove id` is a
no-op: it returns without modifying head, tail, or any link field. -/
theorem c7_remove_out_of_range {CAP : Nat} (l : LList CAP) (id : Nat)
    (h : CAP ≤ id) : l.remove id = l :=
  remove_oob l h

/-- Witness for C7: removing id 5 from a fresh capacity-1 list. -/
theorem c7_remove_out_of_range_witness :
    1 ≤ 5 ∧ (LList.new 1).remove 5 = LList.new 1 :=
  ⟨by decide, c7_remove_out_of_range (LList.new 1) 5 (by decide)⟩

/-- C8: after removing the only linked id of a well-formed singleton list,
`is_empty` holds and both head and tail are absent. -/
theorem c8_remove_only_element {CAP : Nat} {l : LList CAP} {x : Nat}
    (hrep : Represents l [x]) :
    (l.remove x).isEmpty = true ∧ (l.remove x).head = none ∧
      (l.remove x).tail = none := by
  have hrm := represents_remove_mem hrep (List.mem_cons_self x [])
  rw [List.erase_cons_head] at hrm
  have hh : (l.remove x).head = none := by rw [hrm.head_eq]; rfl
  have ht : (l.remove x).tail = none := by rw [hrm.tail_eq]; rfl
  exact ⟨by rw [LList.isEmpty, hh]; rfl, hh, ht⟩

/-- Witness for C8: the capacity-1 singleton list holding id 0. -/
theorem c8_remove_only_element_witness :
    Represents c8list [0] ∧
      ((c8list.remove 0).isEmpty = true ∧ (c8list.remove 0).head = none ∧
        (c8list.remove 0).tail = none) :=
  ⟨by decide, @c8_remove_only_element 1 c8list 0 (by decide)⟩

/-- C9: whenever the parsed capacity or hot-set-size parameter is zero, the
demo harness prints the diagnostic and exits with the non-zero status 2
before any cache is constructed or any cache operation is performed (the
`exitWith` outcome of the model carries no cache and precedes the demo
branch). -/
theorem c9_zero_params_exit (capacity hotSize scanSize hotOps seed : Nat)
    (h : capacity = 0 ∨ hotSize = 0) :
    mainDispatch capacity hotSize scanSize hotOps seed =
      MainAction.exitWith 2 "capacity and hot_size must be > 0" ∧ (2 : Nat) ≠ 0 := by
  refine ⟨?_, by decide⟩
  unfold mainDispatch
  rcases h with h | h <;> simp [h]

/-- Witness for C9: capacity 0 with otherwise positive parameters. -/
theorem c9_zero_params_exit_witness :
    ((0 : Nat) = 0 ∨ (5 : Nat) = 0) ∧
      (mainDispatch 0 5 7 9 11 =
          MainAction.exitWith 2 "capacity and hot_size must be > 0" ∧ (2 : Nat) ≠ 0) :=
  ⟨Or.inl rfl, c9_zero_params_exit 0 5 7 9 11 (Or.inl rfl)⟩

/-- C10: push_front followed by pop_front is a round trip: pushing an
in-range, not-currently-linked id onto a well-formed list and then popping
the front returns that id and restores exactly the original state (head,
tail, and every link field). -/
theorem c10_push_pop_roundtrip {CAP : Nat} {l : LList CAP} {xs : List Nat}
    {id : Nat} (hrep : Represents l xs) (hid : id < CAP) (hmem : id ∉ xs) :
    ∃ l', l.pushFront id = some l' ∧ l'.popFront = (some id, l) := by
  obtain ⟨l', hpush, hrep'⟩ := represents_pushFront hrep hid hmem
  have hh : l'.head = some id := by rw [hrep'.head_eq]; rfl
  have hrm := represents_remove_mem hrep' (List.mem_cons_self id xs)
  rw [List.erase_cons_head] at hrm
  have heq : l'.remove id = l := represents_unique hrm hrep
  exact ⟨l', hpush, by rw [popFront_cons hh, heq]⟩

/-- Witness for C10: pushing and popping id 0 on the empty capacity-2 list. -/
theorem c10_push_pop_roundtrip_witness :
    Represents (LList.new 2) [] ∧ 0 < 2 ∧ ((0 : Nat) ∉ ([] : List Nat)) ∧
      (∃ l', (LList.new 2).pushFront 0 = some l' ∧
        l'.popFront = (some 0, LList.new 2)) :=
  ⟨by decide, by decide, by decide,
    @c10_push_pop_roundtrip 2 (LList.new 2) [] 0 (by decide) (by decide) (by decide)⟩

end LruK
